import Mathlib

/-!
# Verification of `rename_files.py`

Shallow embedding of the repository's single source file.  Strings are
modelled as `List Char`.  Python's `str.replace`, substring containment
(the `in` operator), `os.path.join`, `os.path.dirname`, `str.strip`,
`str.lower` and the quote-stripping logic of `main` are translated below.
Filesystem effects (`os.path.isdir`, `os.walk`, `os.rename`) are modelled
by an oracle structure `FS`; the outcome of each `os.rename` call is given
by the oracle field `renameErr` (`none` = success, `some e` = the raised
exception's message `e`).
-/

/-- Engine of Python `s.replace(find, repl)`.  The `Nat` argument counts
characters still to be skipped after a match has been consumed.  CPython
semantics: scan left to right, matches are non-overlapping; an empty
pattern matches before every character and once more at the end. -/
def replaceGo (find repl : List Char) : List Char → Nat → List Char
  | [], _ => if find.isEmpty then repl else []
  | _ :: rest, k + 1 => replaceGo find repl rest k
  | c :: rest, 0 =>
    if find.isEmpty then repl ++ c :: replaceGo find repl rest 0
    else if find.isPrefixOf (c :: rest) then
      repl ++ replaceGo find repl rest (find.length - 1)
    else c :: replaceGo find repl rest 0

/-- Python `s.replace(find, repl)`: the expression
`filename.replace(find_char, replace_char)` at line 19 of the source. -/
def pyReplace (find repl s : List Char) : List Char := replaceGo find repl s 0

/-- Python substring test `find in s` (line 18, `if find_char in filename`). -/
def containsSub (find : List Char) : List Char → Bool
  | [] => find.isEmpty
  | c :: rest => find.isPrefixOf (c :: rest) || containsSub find rest

/-- `os.path.join root name` on POSIX: an absolute `name` discards `root`. -/
def joinPath (root name : List Char) : List Char :=
  if name.head? = some '/' then name else root ++ '/' :: name

/-- `os.path.dirname` of a POSIX path: everything before the last slash
(the degenerate all-slashes prefix of an absolute root is not modelled). -/
def parentDir (p : List Char) : List Char :=
  ((p.reverse.dropWhile (fun c => c != '/')).drop 1).reverse

/-- One `os.walk` triple `(root, dirs, files)`. -/
structure WalkEntry where
  root : List Char
  dirs : List (List Char)
  files : List (List Char)

/-- Filesystem oracle: `isDir` models `os.path.isdir`, `walk` models
`os.walk` (top-down directory snapshot), and `renameErr old new` models a
call `os.rename(old, new)` — `none` means it succeeds, `some e` means it
raises an exception whose message is `e`. -/
structure FS where
  isDir : List Char → Bool
  walk : List Char → List WalkEntry
  renameErr : List Char → List Char → Option (List Char)

/-- Per-file outcome of the loop body: the `Renamed: ...` print (together
with `count += 1`), or the `Error renaming ...` print (lines 23-28). -/
inductive Outcome where
  | renamed (root oldName newName : List Char)
  | failed (root oldName newName err : List Char)
  deriving DecidableEq

def Outcome.rootOf : Outcome → List Char
  | .renamed r _ _ => r
  | .failed r _ _ _ => r

def Outcome.oldOf : Outcome → List Char
  | .renamed _ o _ => o
  | .failed _ o _ _ => o

def Outcome.newOf : Outcome → List Char
  | .renamed _ _ n => n
  | .failed _ _ n _ => n

def Outcome.isSuccess : Outcome → Bool
  | .renamed _ _ _ => true
  | .failed _ _ _ _ => false

/-- Result of one `rename_files` run: the fatal missing-directory message
(lines 10-12) or the list of per-file outcomes plus the final `count`. -/
inductive RunResult where
  | dirNotFound (dir : List Char)
  | finished (outcomes : List Outcome) (count : Nat)
  deriving DecidableEq

/-- Inner loop `for filename in files:` of `rename_files` (lines 17-28). -/
def processFiles (fs : FS) (find repl root : List Char) : List (List Char) → List Outcome
  | [] => []
  | filename :: rest =>
    if containsSub find filename then
      let new_filename := pyReplace find repl filename
      let old_path := joinPath root filename
      let new_path := joinPath root new_filename
      (match fs.renameErr old_path new_path with
        | none => Outcome.renamed root filename new_filename
        | some e => Outcome.failed root filename new_filename e)
        :: processFiles fs find repl root rest
    else processFiles fs find repl root rest

/-- Outer loop `for root, dirs, files in os.walk(target_dir):` (line 16). -/
def processWalk (fs : FS) (find repl : List Char) : List WalkEntry → List Outcome
  | [] => []
  | e :: rest => processFiles fs find repl e.root e.files ++ processWalk fs find repl rest

/-- The running `count`: incremented exactly on each successful rename
(line 26), untouched when `os.rename` raised (line 27-28). -/
def countRenamed : List Outcome → Nat
  | [] => 0
  | Outcome.renamed _ _ _ :: rest => countRenamed rest + 1
  | Outcome.failed _ _ _ _ :: rest => countRenamed rest

/-- `rename_files(target_dir, find_char, replace_char)` (lines 5-30). -/
def rename_files (fs : FS) (target_dir find_char replace_char : List Char) : RunResult :=
  if fs.isDir target_dir then
    let outcomes := processWalk fs find_char replace_char (fs.walk target_dir)
    RunResult.finished outcomes (countRenamed outcomes)
  else RunResult.dirNotFound target_dir

def outcomesOf : RunResult → List Outcome
  | RunResult.dirNotFound _ => []
  | RunResult.finished os _ => os

def countOf : RunResult → Nat
  | RunResult.dirNotFound _ => 0
  | RunResult.finished _ c => c

/-- The whitespace characters removed by Python `str.strip()`. -/
def isSpaceChar (c : Char) : Bool :=
  c == ' ' || c == Char.ofNat 9 || c == Char.ofNat 10 || c == Char.ofNat 13 ||
  c == Char.ofNat 11 || c == Char.ofNat 12

/-- Python `s.strip()` (line 43). -/
def pyStrip (s : List Char) : List Char :=
  ((s.dropWhile isSpaceChar).reverse.dropWhile isSpaceChar).reverse

/-- Lines 45-47: remove one layer of surrounding matching quote
characters (double quotes `U+0022` or single quotes `U+0027`). -/
def stripQuotes (s : List Char) : List Char :=
  if (s.head? == some (Char.ofNat 34) && s.getLast? == some (Char.ofNat 34)) ||
     (s.head? == some (Char.ofNat 39) && s.getLast? == some (Char.ofNat 39)) then
    (s.drop 1).dropLast
  else s

/-- `os.path.abspath` against the working directory `cwd`
(`normpath` component collapsing is not modelled). -/
def abspath (cwd p : List Char) : List Char :=
  if p.isEmpty then cwd
  else if p.head? = some '/' then p
  else cwd ++ '/' :: p

structure Args where
  directory : Option (List Char)
  find : Option (List Char)
  replace : Option (List Char)

/-- The four interactive answers `main` may read from standard input. -/
structure Stdin where
  dirInput : List Char
  findInput : List Char
  replaceInput : List Char
  confirmInput : List Char

/-- Lines 41-49: use the command-line path when truthy (Python `if not
target_path` also catches the empty string); otherwise prompt, strip
whitespace and remove surrounding quotes.  Either way, `os.path.abspath`
is applied at line 49. -/
def resolveTargetPath (dirArg : Option (List Char)) (dirInput cwd : List Char) : List Char :=
  abspath cwd (match dirArg with
    | some p => if p.isEmpty then stripQuotes (pyStrip dirInput) else p
    | none => stripQuotes (pyStrip dirInput))

/-- Python `s.lower()` restricted to its ASCII action, which is exactly
`Char.toLower` on each character (line 69). -/
def pyLower (s : List Char) : List Char := s.map Char.toLower

inductive MainResult where
  | cancelled
  | ran (result : RunResult)
  deriving DecidableEq

/-- Lines 41-74 of `main` after argument parsing: resolve the three
configuration values (a `None` flag triggers the interactive prompt),
lower-case the confirmation answer, and run the renamer only when the
lowered answer is exactly `"y"`; otherwise print `Operation cancelled.`. -/
def mainModel (fs : FS) (args : Args) (stdin : Stdin) (cwd : List Char) : MainResult :=
  let target_path := resolveTargetPath args.directory stdin.dirInput cwd
  let find_char := args.find.getD stdin.findInput
  let replace_char := args.replace.getD stdin.replaceInput
  if pyLower stdin.confirmInput = ['y'] then
    MainResult.ran (rename_files fs target_path find_char replace_char)
  else MainResult.cancelled

/-- Index of the leftmost occurrence of `find` in `s`, or `none`.
Spec-side helper, written from the spec's words: the scan is left to
right, so the first position whose suffix starts with `find` is taken. -/
def firstOccIdx (find : List Char) : List Char → Option Nat
  | [] => if find.isPrefixOf [] then some 0 else none
  | c :: rest =>
    if find.isPrefixOf (c :: rest) then some 0
    else (firstOccIdx find rest).map (· + 1)

/-- Spec §4.1 transformation, written from the spec's words: replace the
leftmost occurrence of `find` by `repl` and continue after the inserted
replacement (left-to-right, non-overlapping scan).  The empty pattern is
the §9 degenerate case and is returned unchanged here; `pyReplace` is
compared with this definition only for non-empty `find`. -/
def specReplace (find repl s : List Char) : List Char :=
  if h : find.isEmpty then s
  else
    match h2 : firstOccIdx find s with
    | none => s
    | some i => s.take i ++ repl ++ specReplace find repl (s.drop (i + find.length))
termination_by s.length
decreasing_by
  simp only [List.length_drop]
  have hfl : 0 < find.length := by
    cases find with
    | nil => exact absurd rfl h
    | cons a as => simp
  have hs : 0 < s.length := by
    cases s with
    | nil =>
      rw [show firstOccIdx find [] = none from by
        cases find with
        | nil => exact absurd rfl h
        | cons a as => rfl] at h2
      cases h2
    | cons a as => simp
  omega

/-! ## Helper lemmas -/

theorem isEmpty_false_of_ne_nil {l : List Char} (h : l ≠ []) : l.isEmpty = false := by
  cases l with
  | nil => exact absurd rfl h
  | cons a as => rfl

theorem isPrefixOf_nil_right (a : List Char) : a.isPrefixOf [] = a.isEmpty := by
  cases a <;> rfl

theorem isPrefixOf_cons_cons (x y : Char) (xs ys : List Char) :
    (x :: xs).isPrefixOf (y :: ys) = (x == y && xs.isPrefixOf ys) := rfl

theorem length_le_of_isPrefixOf :
    ∀ {a b : List Char}, a.isPrefixOf b = true → a.length ≤ b.length := by
  intro a
  induction a with
  | nil => intro b _; exact Nat.zero_le _
  | cons x xs ih =>
    intro b h
    cases b with
    | nil => simp at h
    | cons y ys =>
      rw [isPrefixOf_cons_cons] at h
      have h2 := (Bool.and_eq_true _ _).mp h
      simpa using Nat.succ_le_succ (ih h2.2)

theorem eq_append_of_isPrefixOf :
    ∀ {a b : List Char}, a.isPrefixOf b = true → b = a ++ b.drop a.length := by
  intro a
  induction a with
  | nil => intro b _; simp
  | cons x xs ih =>
    intro b h
    cases b with
    | nil => simp at h
    | cons y ys =>
      rw [isPrefixOf_cons_cons] at h
      have h2 := (Bool.and_eq_true _ _).mp h
      have hxy : x = y := eq_of_beq h2.1
      simpa [hxy] using ih h2.2

theorem replaceGo_nil (find repl : List Char) (k : Nat) :
    replaceGo find repl [] k = if find.isEmpty then repl else [] := rfl

theorem replaceGo_succ (find repl : List Char) (c : Char) (rest : List Char) (k : Nat) :
    replaceGo find repl (c :: rest) (k + 1) = replaceGo find repl rest k := rfl

theorem replaceGo_zero (find repl : List Char) (c : Char) (rest : List Char) :
    replaceGo find repl (c :: rest) 0 =
      if find.isEmpty then repl ++ c :: replaceGo find repl rest 0
      else if find.isPrefixOf (c :: rest) then
        repl ++ replaceGo find repl rest (find.length - 1)
      else c :: replaceGo find repl rest 0 := rfl

theorem replaceGo_skip (find repl : List Char) :
    ∀ (s : List Char) (k : Nat), replaceGo find repl s k = replaceGo find repl (s.drop k) 0 := by
  intro s
  induction s with
  | nil => intro k; cases k <;> rfl
  | cons c rest ih =>
    intro k
    cases k with
    | zero => rfl
    | succ k => rw [replaceGo_succ, ih k, List.drop_succ_cons]

theorem containsSub_cons (find : List Char) (c : Char) (rest : List Char) :
    containsSub find (c :: rest) = (find.isPrefixOf (c :: rest) || containsSub find rest) := rfl

theorem containsSub_nil_find : ∀ s : List Char, containsSub [] s = true := by
  intro s
  cases s with
  | nil => rfl
  | cons c rest => rw [containsSub_cons]; simp

/-- Replacing a pattern that does not occur in `s` leaves `s` unchanged. -/
theorem pyReplace_of_not_contains (find repl : List Char) (hne : find ≠ []) :
    ∀ s : List Char, containsSub find s = false → pyReplace find repl s = s := by
  have hB := isEmpty_false_of_ne_nil hne
  intro s
  induction s with
  | nil => intro _; simp [pyReplace, replaceGo_nil, hB]
  | cons c rest ih =>
    intro h
    rw [containsSub_cons, Bool.or_eq_false_iff] at h
    unfold pyReplace at ih ⊢
    rw [replaceGo_zero, if_neg (by simp [hB]), if_neg (by simp [h.1]), ih h.2]

/-- Every character of `pyReplace find repl s` comes from `s` or from `repl`. -/
theorem mem_of_mem_replaceGo (find repl : List Char) :
    ∀ (s : List Char) (k : Nat) (c : Char),
      c ∈ replaceGo find repl s k → c ∈ s ∨ c ∈ repl := by
  intro s
  induction s with
  | nil =>
    intro k c h
    rw [replaceGo_nil] at h
    split at h
    · exact Or.inr h
    · simp at h
  | cons x rest ih =>
    intro k c h
    cases k with
    | succ k =>
      rw [replaceGo_succ] at h
      rcases ih k c h with h2 | h2
      · exact Or.inl (List.mem_cons_of_mem _ h2)
      · exact Or.inr h2
    | zero =>
      rw [replaceGo_zero] at h
      split at h
      · rcases List.mem_append.mp h with h2 | h2
        · exact Or.inr h2
        · rcases List.mem_cons.mp h2 with h3 | h3
          · exact Or.inl (h3 ▸ List.mem_cons_self _ _)
          · rcases ih 0 c h3 with h4 | h4
            · exact Or.inl (List.mem_cons_of_mem _ h4)
            · exact Or.inr h4
      · split at h
        · rcases List.mem_append.mp h with h2 | h2
          · exact Or.inr h2
          · rcases ih _ c h2 with h4 | h4
            · exact Or.inl (List.mem_cons_of_mem _ h4)
            · exact Or.inr h4
        · rcases List.mem_cons.mp h with h3 | h3
          · exact Or.inl (h3 ▸ List.mem_cons_self _ _)
          · rcases ih 0 c h3 with h4 | h4
            · exact Or.inl (List.mem_cons_of_mem _ h4)
            · exact Or.inr h4

/-- Replacing a non-empty token by itself changes nothing. -/
theorem pyReplace_self (find : List Char) (hne : find ≠ []) :
    ∀ s : List Char, pyReplace find find s = s := by
  have hB := isEmpty_false_of_ne_nil hne
  have key : ∀ (n : Nat) (s : List Char), s.length ≤ n → replaceGo find find s 0 = s := by
    intro n
    induction n with
    | zero =>
      intro s hs
      have : s = [] := List.length_eq_zero.mp (Nat.le_zero.mp hs)
      subst this
      simp [replaceGo_nil, hB]
    | succ n ih =>
      intro s hs
      cases s with
      | nil => simp [replaceGo_nil, hB]
      | cons c rest =>
        by_cases hp : find.isPrefixOf (c :: rest) = true
        · rw [replaceGo_zero, if_neg (by simp [hB]), if_pos hp,
            replaceGo_skip find find rest (find.length - 1)]
          have hdec := eq_append_of_isPrefixOf hp
          have hlen : 1 ≤ find.length := by
            cases find with
            | nil => exact absurd rfl hne
            | cons a as => simp
          have hdrop : rest.drop (find.length - 1) = (c :: rest).drop find.length := by
            cases hflen : find.length with
            | zero => omega
            | succ m => simp [hflen, List.drop_succ_cons]
          have hs' : rest.length + 1 ≤ n + 1 := by simpa using hs
          rw [hdrop, ih ((c :: rest).drop find.length)
            (by simp only [List.length_drop, List.length_cons]; omega)]
          exact hdec.symm
        · rw [replaceGo_zero, if_neg (by simp [hB]), if_neg (by simp [hp])]
          rw [ih rest (by simpa using Nat.le_of_succ_le_succ (by simpa using hs))]
  intro s
  exact key s.length s le_rfl

/-- Python `s.replace("", repl)` inserts `repl` before every character and
once more at the end. -/
theorem pyReplace_nil_find (repl : List Char) :
    ∀ s : List Char, pyReplace [] repl s = repl ++ s.flatMap (fun c => c :: repl) := by
  intro s
  induction s with
  | nil => simp [pyReplace, replaceGo_nil]
  | cons c rest ih =>
    unfold pyReplace at ih ⊢
    rw [replaceGo_zero]
    simp [ih]

theorem firstOccIdx_nil (find : List Char) :
    firstOccIdx find [] = if find.isPrefixOf [] then some 0 else none := rfl

theorem firstOccIdx_cons (find : List Char) (c : Char) (rest : List Char) :
    firstOccIdx find (c :: rest) =
      if find.isPrefixOf (c :: rest) then some 0
      else (firstOccIdx find rest).map (· + 1) := rfl

theorem specReplace_of_none (find repl s : List Char) (hne : find.isEmpty = false)
    (h : firstOccIdx find s = none) : specReplace find repl s = s := by
  conv_lhs => rw [specReplace]
  rw [dif_neg (by simp [hne])]
  split
  · rfl
  · simp_all

theorem specReplace_of_some (find repl s : List Char) (i : Nat) (hne : find.isEmpty = false)
    (h : firstOccIdx find s = some i) :
    specReplace find repl s =
      s.take i ++ repl ++ specReplace find repl (s.drop (i + find.length)) := by
  conv_lhs => rw [specReplace]
  rw [dif_neg (by simp [hne])]
  split
  · simp_all
  · simp_all

/-- The source's replacement coincides with the spec's left-to-right
non-overlapping leftmost-occurrence rewriting for every non-empty token. -/
theorem pyReplace_eq_specReplace (find repl : List Char) (hne : find ≠ []) :
    ∀ s : List Char, pyReplace find repl s = specReplace find repl s := by
  have hB := isEmpty_false_of_ne_nil hne
  have hnil : replaceGo find repl [] 0 = specReplace find repl [] := by
    rw [replaceGo_nil, if_neg (by simp [hB]),
      specReplace_of_none _ _ _ hB (by simp [firstOccIdx_nil, isPrefixOf_nil_right, hB])]
  have key : ∀ (n : Nat) (s : List Char), s.length ≤ n →
      replaceGo find repl s 0 = specReplace find repl s := by
    intro n
    induction n with
    | zero =>
      intro s hs
      have hs0 : s = [] := List.length_eq_zero.mp (Nat.le_zero.mp hs)
      subst hs0
      exact hnil
    | succ n ih =>
      intro s hs
      cases s with
      | nil => exact hnil
      | cons c rest =>
        by_cases hp : find.isPrefixOf (c :: rest) = true
        · have hocc : firstOccIdx find (c :: rest) = some 0 := by
            rw [firstOccIdx_cons, if_pos hp]
          rw [replaceGo_zero, if_neg (by simp [hB]), if_pos hp, replaceGo_skip,
            specReplace_of_some find repl _ 0 hB hocc]
          have hfl : 1 ≤ find.length := by
            cases find with
            | nil => exact absurd rfl hne
            | cons a as => simp
          have hdrop : rest.drop (find.length - 1) = (c :: rest).drop find.length := by
            cases hflen : find.length with
            | zero => omega
            | succ m => simp [List.drop_succ_cons]
          rw [hdrop, ih ((c :: rest).drop find.length)
            (by simp only [List.length_drop, List.length_cons] at hs ⊢; omega)]
          simp
        · have hocc : firstOccIdx find (c :: rest) = (firstOccIdx find rest).map (· + 1) := by
            rw [firstOccIdx_cons, if_neg (by simp [hp])]
          rw [replaceGo_zero, if_neg (by simp [hB]), if_neg (by simp [hp]),
            ih rest (by simp only [List.length_cons] at hs; omega)]
          cases ho : firstOccIdx find rest with
          | none =>
            rw [specReplace_of_none find repl rest hB ho,
              specReplace_of_none find repl (c :: rest) hB (by rw [hocc, ho]; rfl)]
          | some j =>
            rw [specReplace_of_some find repl rest j hB ho,
              specReplace_of_some find repl (c :: rest) (j + 1) hB (by rw [hocc, ho]; rfl)]
            have harith : j + 1 + find.length = (j + find.length) + 1 := by omega
            rw [harith]
            simp [List.take_succ_cons, List.drop_succ_cons]
  intro s
  exact key s.length s le_rfl

theorem processFiles_nil (fs : FS) (find repl root : List Char) :
    processFiles fs find repl root [] = [] := rfl

theorem processFiles_cons (fs : FS) (find repl root n : List Char) (rest : List (List Char)) :
    processFiles fs find repl root (n :: rest) =
      if containsSub find n then
        (match fs.renameErr (joinPath root n) (joinPath root (pyReplace find repl n)) with
          | none => Outcome.renamed root n (pyReplace find repl n)
          | some e => Outcome.failed root n (pyReplace find repl n) e)
          :: processFiles fs find repl root rest
      else processFiles fs find repl root rest := rfl

/-- Every outcome of the inner loop stems from a file of the list whose
name contains the token, and records exactly that file's data. -/
theorem processFiles_origin (fs : FS) (find repl root : List Char) :
    ∀ (files : List (List Char)) (o : Outcome), o ∈ processFiles fs find repl root files →
      ∃ n, n ∈ files ∧ containsSub find n = true ∧
        o.rootOf = root ∧ o.oldOf = n ∧ o.newOf = pyReplace find repl n := by
  intro files
  induction files with
  | nil => intro o h; simp [processFiles_nil] at h
  | cons m rest ih =>
    intro o h
    rw [processFiles_cons] at h
    by_cases hc : containsSub find m = true
    · rw [if_pos hc] at h
      rcases List.mem_cons.mp h with h2 | h2
      · refine ⟨m, List.mem_cons_self _ _, hc, ?_, ?_, ?_⟩ <;>
          (cases hre : fs.renameErr (joinPath root m) (joinPath root (pyReplace find repl m)) with
            | none => rw [hre] at h2; subst h2; rfl
            | some e => rw [hre] at h2; subst h2; rfl)
      · rcases ih o h2 with ⟨n, hn, h3⟩
        exact ⟨n, List.mem_cons_of_mem _ hn, h3⟩
    · rw [if_neg hc] at h
      rcases ih o h with ⟨n, hn, h3⟩
      exact ⟨n, List.mem_cons_of_mem _ hn, h3⟩

/-- Conversely, every file of the list whose name contains the token gives
rise to an outcome of the inner loop. -/
theorem processFiles_complete (fs : FS) (find repl root : List Char) :
    ∀ (files : List (List Char)) (n : List Char), n ∈ files → containsSub find n = true →
      ∃ o, o ∈ processFiles fs find repl root files ∧
        o.rootOf = root ∧ o.oldOf = n ∧ o.newOf = pyReplace find repl n := by
  intro files
  induction files with
  | nil => intro n hn; simp at hn
  | cons m rest ih =>
    intro n hn hc
    rcases List.mem_cons.mp hn with h2 | h2
    · subst h2
      cases hre : fs.renameErr (joinPath root n) (joinPath root (pyReplace find repl n)) with
      | none =>
        refine ⟨Outcome.renamed root n (pyReplace find repl n), ?_, rfl, rfl, rfl⟩
        rw [processFiles_cons, if_pos hc, hre]
        exact List.mem_cons_self _ _
      | some e =>
        refine ⟨Outcome.failed root n (pyReplace find repl n) e, ?_, rfl, rfl, rfl⟩
        rw [processFiles_cons, if_pos hc, hre]
        exact List.mem_cons_self _ _
    · rcases ih n h2 hc with ⟨o, ho, hrest⟩
      refine ⟨o, ?_, hrest⟩
      rw [processFiles_cons]
      by_cases hcm : containsSub find m = true
      · rw [if_pos hcm]
        exact List.mem_cons_of_mem _ ho
      · rw [if_neg hcm]
        exact ho

/-- A `failed` outcome records exactly the error message returned by the
`os.rename` oracle for its own old and new paths. -/
theorem processFiles_failed (fs : FS) (find repl root : List Char) :
    ∀ (files : List (List Char)) (r o n e : List Char),
      Outcome.failed r o n e ∈ processFiles fs find repl root files →
      fs.renameErr (joinPath r o) (joinPath r n) = some e := by
  intro files
  induction files with
  | nil => intro r o n e h; simp [processFiles_nil] at h
  | cons m rest ih =>
    intro r o n e h
    rw [processFiles_cons] at h
    by_cases hc : containsSub find m = true
    · rw [if_pos hc] at h
      rcases List.mem_cons.mp h with h2 | h2
      · cases hre : fs.renameErr (joinPath root m) (joinPath root (pyReplace find repl m)) with
        | none => rw [hre] at h2; simp at h2
        | some e2 =>
          rw [hre] at h2
          rw [Outcome.failed.injEq] at h2
          obtain ⟨rfl, rfl, rfl, rfl⟩ := h2
          exact hre
      · exact ih r o n e h2
    · rw [if_neg hc] at h
      exact ih r o n e h

theorem processFiles_length (fs : FS) (find repl root : List Char) :
    ∀ files : List (List Char),
      (processFiles fs find repl root files).length =
        (files.filter (fun n => containsSub find n)).length := by
  intro files
  induction files with
  | nil => rfl
  | cons m rest ih =>
    by_cases hc : containsSub find m = true
    · rw [processFiles_cons, if_pos hc]
      simp [List.filter_cons, hc, ih]
    · rw [processFiles_cons, if_neg hc]
      simp only [Bool.not_eq_true] at hc
      simp [List.filter_cons, hc, ih]

theorem processFiles_success (fs : FS) (find repl root : List Char)
    (hok : ∀ p q, fs.renameErr p q = none) :
    ∀ (files : List (List Char)) (o : Outcome),
      o ∈ processFiles fs find repl root files → o.isSuccess = true := by
  intro files
  induction files with
  | nil => intro o h; simp [processFiles_nil] at h
  | cons m rest ih =>
    intro o h
    rw [processFiles_cons] at h
    by_cases hc : containsSub find m = true
    · rw [if_pos hc, hok] at h
      rcases List.mem_cons.mp h with h2 | h2
      · subst h2; rfl
      · exact ih o h2
    · rw [if_neg hc] at h
      exact ih o h

theorem processWalk_nil (fs : FS) (find repl : List Char) :
    processWalk fs find repl [] = [] := rfl

theorem processWalk_cons (fs : FS) (find repl : List Char) (e : WalkEntry)
    (rest : List WalkEntry) :
    processWalk fs find repl (e :: rest) =
      processFiles fs find repl e.root e.files ++ processWalk fs find repl rest := rfl

/-- Every outcome of a walk stems from a file (never a directory) of some
walk entry whose name contains the token. -/
theorem processWalk_origin (fs : FS) (find repl : List Char) :
    ∀ (entries : List WalkEntry) (o : Outcome), o ∈ processWalk fs find repl entries →
      ∃ e, e ∈ entries ∧ ∃ n, n ∈ e.files ∧ containsSub find n = true ∧
        o.rootOf = e.root ∧ o.oldOf = n ∧ o.newOf = pyReplace find repl n := by
  intro entries
  induction entries with
  | nil => intro o h; simp [processWalk_nil] at h
  | cons e rest ih =>
    intro o h
    rw [processWalk_cons] at h
    rcases List.mem_append.mp h with h2 | h2
    · rcases processFiles_origin fs find repl e.root e.files o h2 with ⟨n, hn, h3⟩
      exact ⟨e, List.mem_cons_self _ _, n, hn, h3⟩
    · rcases ih o h2 with ⟨e2, he2, h3⟩
      exact ⟨e2, List.mem_cons_of_mem _ he2, h3⟩

/-- Every file of the walk whose name contains the token gives rise to an
outcome. -/
theorem processWalk_complete (fs : FS) (find repl : List Char) :
    ∀ (entries : List WalkEntry) (e : WalkEntry), e ∈ entries →
      ∀ n : List Char, n ∈ e.files → containsSub find n = true →
        ∃ o, o ∈ processWalk fs find repl entries ∧
          o.rootOf = e.root ∧ o.oldOf = n ∧ o.newOf = pyReplace find repl n := by
  intro entries
  induction entries with
  | nil => intro e he; simp at he
  | cons e2 rest ih =>
    intro e he n hn hc
    rcases List.mem_cons.mp he with h2 | h2
    · subst h2
      rcases processFiles_complete fs find repl e.root e.files n hn hc with ⟨o, ho, h3⟩
      refine ⟨o, ?_, h3⟩
      rw [processWalk_cons]
      exact List.mem_append.mpr (Or.inl ho)
    · rcases ih e h2 n hn hc with ⟨o, ho, h3⟩
      refine ⟨o, ?_, h3⟩
      rw [processWalk_cons]
      exact List.mem_append.mpr (Or.inr ho)

theorem processWalk_failed (fs : FS) (find repl : List Char) :
    ∀ (entries : List WalkEntry) (r o n e : List Char),
      Outcome.failed r o n e ∈ processWalk fs find repl entries →
      fs.renameErr (joinPath r o) (joinPath r n) = some e := by
  intro entries
  induction entries with
  | nil => intro r o n e h; simp [processWalk_nil] at h
  | cons e2 rest ih =>
    intro r o n e h
    rw [processWalk_cons] at h
    rcases List.mem_append.mp h with h2 | h2
    · exact processFiles_failed fs find repl e2.root e2.files r o n e h2
    · exact ih r o n e h2

theorem processWalk_length (fs : FS) (find repl : List Char) :
    ∀ entries : List WalkEntry,
      (processWalk fs find repl entries).length =
        (entries.map (fun e => (e.files.filter (fun n => containsSub find n)).length)).sum := by
  intro entries
  induction entries with
  | nil => rfl
  | cons e rest ih =>
    rw [processWalk_cons]
    simp [List.length_append, processFiles_length, ih]

theorem processWalk_success (fs : FS) (find repl : List Char)
    (hok : ∀ p q, fs.renameErr p q = none) :
    ∀ (entries : List WalkEntry) (o : Outcome),
      o ∈ processWalk fs find repl entries → o.isSuccess = true := by
  intro entries
  induction entries with
  | nil => intro o h; simp [processWalk_nil] at h
  | cons e rest ih =>
    intro o h
    rw [processWalk_cons] at h
    rcases List.mem_append.mp h with h2 | h2
    · exact processFiles_success fs find repl e.root hok e.files o h2
    · exact ih o h2

theorem countRenamed_eq_filter :
    ∀ os : List Outcome, countRenamed os = (os.filter Outcome.isSuccess).length := by
  intro os
  induction os with
  | nil => rfl
  | cons o rest ih =>
    cases o with
    | renamed r a b => simp [countRenamed, List.filter_cons, Outcome.isSuccess, ih]
    | failed r a b e => simp [countRenamed, List.filter_cons, Outcome.isSuccess, ih]

theorem countRenamed_of_all_success :
    ∀ os : List Outcome, (∀ o ∈ os, o.isSuccess = true) → countRenamed os = os.length := by
  intro os
  induction os with
  | nil => intro _; rfl
  | cons o rest ih =>
    intro h
    cases o with
    | renamed r a b =>
      simp [countRenamed, ih fun o ho => h o (List.mem_cons_of_mem _ ho)]
    | failed r a b e =>
      have := h _ (List.mem_cons_self _ _)
      simp [Outcome.isSuccess] at this

theorem dropWhile_append_all {p : Char → Bool} :
    ∀ l₁ l₂ : List Char, (∀ c ∈ l₁, p c = true) →
      List.dropWhile p (l₁ ++ l₂) = List.dropWhile p l₂ := by
  intro l₁
  induction l₁ with
  | nil => intro l₂ _; rfl
  | cons c rest ih =>
    intro l₂ h
    rw [List.cons_append, List.dropWhile_cons_of_pos (h c (List.mem_cons_self _ _))]
    exact ih l₂ fun d hd => h d (List.mem_cons_of_mem _ hd)

/-- Joining a separator-free name onto a directory gives a path whose
parent is exactly that directory. -/
theorem parentDir_joinPath (root n : List Char) (h : '/' ∉ n) :
    parentDir (joinPath root n) = root := by
  have hj : joinPath root n = root ++ '/' :: n := by
    unfold joinPath
    rw [if_neg]
    intro hhead
    cases n with
    | nil => simp at hhead
    | cons c rest =>
      simp at hhead
      exact h (hhead ▸ List.mem_cons_self _ _)
  rw [hj]
  unfold parentDir
  rw [List.reverse_append, List.reverse_cons, List.append_assoc, List.singleton_append,
    dropWhile_append_all n.reverse ('/' :: root.reverse)
      (fun c hc => by
        have : c ≠ '/' := fun he => h (he ▸ List.mem_reverse.mp hc)
        simpa using this),
    List.dropWhile_cons_of_neg (by simp)]
  simp

theorem toNat_ofNat_valid {m : Nat} (h : m < 55296) : (Char.ofNat m).toNat = m := by
  unfold Char.ofNat
  rw [dif_pos (Or.inl h)]
  rfl

/-- `str.lower` sends exactly `'y'` and `'Y'` to `'y'`. -/
theorem toLower_eq_y (c : Char) : Char.toLower c = 'y' ↔ c = 'y' ∨ c = 'Y' := by
  constructor
  · intro h
    unfold Char.toLower at h
    simp only at h
    split at h
    · have h2 := congrArg Char.toNat h
      rename_i hin
      rw [toNat_ofNat_valid (by omega)] at h2
      rw [show Char.toNat 'y' = 121 from rfl] at h2
      have h3 : Char.toNat c = 89 := by omega
      right
      have h4 := congrArg Char.ofNat h3
      rw [Char.ofNat_toNat] at h4
      exact h4.trans (by decide)
    · exact Or.inl h
  · rintro (rfl | rfl) <;> decide

theorem pyLower_eq_y (s : List Char) : pyLower s = ['y'] ↔ s = ['y'] ∨ s = ['Y'] := by
  cases s with
  | nil => simp [pyLower]
  | cons c rest =>
    cases rest with
    | nil => simp [pyLower, toLower_eq_y]
    | cons d rest2 => simp [pyLower]


theorem rename_files_isDir (fs : FS) (t find repl : List Char) (hdir : fs.isDir t = true) :
    rename_files fs t find repl =
      RunResult.finished (processWalk fs find repl (fs.walk t))
        (countRenamed (processWalk fs find repl (fs.walk t))) := by
  unfold rename_files
  rw [if_pos hdir]

theorem rename_files_notDir (fs : FS) (t find repl : List Char) (hdir : fs.isDir t = false) :
    rename_files fs t find repl = RunResult.dirNotFound t := by
  unfold rename_files
  rw [if_neg (by simp [hdir])]

/-! ## Test fixtures: small concrete filesystem oracles -/

/-- One directory `r` holding one file `a`; every rename succeeds. -/
def fsA : FS := ⟨fun _ => true, fun _ => [⟨['r'], [], [['a']]⟩], fun _ _ => none⟩

/-- A target that is not a directory. -/
def fsNone : FS := ⟨fun _ => false, fun _ => [], fun _ _ => none⟩

/-- One directory `r` holding one file `a_b`; every rename succeeds. -/
def fsC3 : FS := ⟨fun _ => true, fun _ => [⟨['r'], [], [['a', '_', 'b']]⟩], fun _ _ => none⟩

/-- One directory `r` holding files `ax` and `ay`; renaming `r/ax` fails
with message `E`, every other rename succeeds. -/
def fsW7 : FS :=
  ⟨fun _ => true, fun _ => [⟨['r'], [], [['a', 'x'], ['a', 'y']]⟩],
    fun p _ => if p = joinPath ['r'] ['a', 'x'] then some ['E'] else none⟩

/-! ## Claims -/

/-- C1, counterexample: the program does not reject an empty find token
with a validation error — on a directory holding one file `a` it attempts
(and here performs) a rename, so "attempts no replacement and no rename
on any file" is false. -/
theorem C1_empty_find_rename_attempted :
    rename_files fsA ['d'] [] ['x'] =
      RunResult.finished [Outcome.renamed ['r'] ['a'] ['x', 'a', 'x']] 1 := by decide

/-- C1, amended: `rename_files` performs no validation of the find token.
When it is empty, every file name contains it, every walked file produces
exactly one outcome, and the new name is the replace token inserted
before every character of the old name and once more at the end (Python
`str.replace` empty-pattern semantics). -/
theorem C1_empty_find_behavior (fs : FS) (t repl : List Char) (hdir : fs.isDir t = true) :
    (∀ n : List Char, containsSub [] n = true) ∧
    (outcomesOf (rename_files fs t [] repl)).length =
      ((fs.walk t).map (fun e => e.files.length)).sum ∧
    ∀ o ∈ outcomesOf (rename_files fs t [] repl),
      Outcome.newOf o = repl ++ (Outcome.oldOf o).flatMap (fun c => c :: repl) := by
  refine ⟨containsSub_nil_find, ?_, ?_⟩
  · rw [rename_files_isDir fs t [] repl hdir]
    simp only [outcomesOf]
    rw [processWalk_length]
    congr 1
    apply List.map_congr_left
    intro e _
    rw [List.filter_eq_self.mpr fun a _ => containsSub_nil_find a]
  · intro o ho
    rw [rename_files_isDir fs t [] repl hdir] at ho
    simp only [outcomesOf] at ho
    rcases processWalk_origin fs [] repl (fs.walk t) o ho with ⟨e, _, n, _, _, _, hold, hnew⟩
    rw [hnew, hold, pyReplace_nil_find]

theorem C1_empty_find_behavior_witness :
    fsA.isDir ['d'] = true ∧
    containsSub [] ['q'] = true ∧
    (outcomesOf (rename_files fsA ['d'] [] ['x'])).length =
      ((fsA.walk ['d']).map (fun e => e.files.length)).sum ∧
    Outcome.newOf (Outcome.renamed ['r'] ['a'] ['x', 'a', 'x']) =
      ['x'] ++ (Outcome.oldOf (Outcome.renamed ['r'] ['a'] ['x', 'a', 'x'])).flatMap
        (fun c => c :: ['x']) :=
  ⟨by decide, (C1_empty_find_behavior fsA ['d'] ['x'] (by decide)).1 ['q'],
   (C1_empty_find_behavior fsA ['d'] ['x'] (by decide)).2.1,
   (C1_empty_find_behavior fsA ['d'] ['x'] (by decide)).2.2 _ (by decide)⟩

/-- C2, counterexample: with find = `ab` and replace = `b` the replace
token does not contain the find token, yet the transformation is not
idempotent on the candidate name `aab`: one application gives `ab`, a
second application gives `b`. -/
theorem C2_idempotence_counterexample :
    containsSub ['a', 'b'] ['b'] = false ∧
    containsSub ['a', 'b'] ['a', 'a', 'b'] = true ∧
    pyReplace ['a', 'b'] ['b'] (pyReplace ['a', 'b'] ['b'] ['a', 'a', 'b']) ≠
      pyReplace ['a', 'b'] ['b'] ['a', 'a', 'b'] := by decide

/-- C2, amended: for a non-empty find token, reapplying the
transformation changes nothing whenever the once-transformed name no
longer contains the find token (the condition on the replace token in the
claim is neither sufficient — see the counterexample — nor necessary,
since replacing a token by itself is idempotent). -/
theorem C2_idempotent_of_result_clean (find repl F : List Char) (hne : find ≠ [])
    (h : containsSub find (pyReplace find repl F) = false) :
    pyReplace find repl (pyReplace find repl F) = pyReplace find repl F :=
  pyReplace_of_not_contains find repl hne (pyReplace find repl F) h

theorem C2_idempotent_of_result_clean_witness :
    (['a'] ≠ ([] : List Char)) ∧
    containsSub ['a'] (pyReplace ['a'] ['b'] ['a']) = false ∧
    pyReplace ['a'] ['b'] (pyReplace ['a'] ['b'] ['a']) = pyReplace ['a'] ['b'] ['a'] :=
  ⟨by decide, by decide, C2_idempotent_of_result_clean ['a'] ['b'] ['a'] (by decide) (by decide)⟩

/-- C3, counterexample: with replace token `s/t` the file `a_b` of
directory `r` is renamed to the path `r/as/tb`, whose parent `r/as`
differs from the old path's parent `r` — so "old path and new path share
the same parent ... for every value of the find and replace tokens" is
false. -/
theorem C3_parent_counterexample :
    Outcome.renamed ['r'] ['a', '_', 'b'] ['a', 's', '/', 't', 'b'] ∈
      outcomesOf (rename_files fsC3 ['d'] ['_'] ['s', '/', 't']) ∧
    parentDir (joinPath ['r'] ['a', 's', '/', 't', 'b']) ≠
      parentDir (joinPath ['r'] ['a', '_', 'b']) := by decide

/-- C3, amended: provided the replace token contains no path separator
(and the walked file names contain none, as `os.walk` guarantees for base
names), each outcome's old path and new path both have the walk root as
parent, hence share the same parent directory. -/
theorem C3_same_parent (fs : FS) (t find repl : List Char) (hrepl : '/' ∉ repl)
    (hfiles : ∀ e ∈ fs.walk t, ∀ n ∈ e.files, '/' ∉ n) :
    ∀ o ∈ outcomesOf (rename_files fs t find repl),
      parentDir (joinPath (Outcome.rootOf o) (Outcome.oldOf o)) = Outcome.rootOf o ∧
      parentDir (joinPath (Outcome.rootOf o) (Outcome.newOf o)) = Outcome.rootOf o := by
  intro o ho
  cases hdir : fs.isDir t with
  | false =>
    rw [rename_files_notDir fs t find repl hdir] at ho
    simp [outcomesOf] at ho
  | true =>
    rw [rename_files_isDir fs t find repl hdir] at ho
    simp only [outcomesOf] at ho
    rcases processWalk_origin fs find repl (fs.walk t) o ho with
      ⟨e, he, n, hn, _, hroot, hold, hnew⟩
    have hnold : '/' ∉ n := hfiles e he n hn
    have hnnew : '/' ∉ pyReplace find repl n := by
      intro hmem
      rcases mem_of_mem_replaceGo find repl n 0 '/' hmem with h2 | h2
      · exact hnold h2
      · exact hrepl h2
    rw [hroot, hold, hnew]
    exact ⟨parentDir_joinPath e.root n hnold, parentDir_joinPath e.root _ hnnew⟩

theorem C3_same_parent_witness :
    ('/' ∉ ['b']) ∧
    parentDir (joinPath (Outcome.rootOf (Outcome.renamed ['r'] ['a'] ['b']))
        (Outcome.oldOf (Outcome.renamed ['r'] ['a'] ['b']))) =
      Outcome.rootOf (Outcome.renamed ['r'] ['a'] ['b']) ∧
    parentDir (joinPath (Outcome.rootOf (Outcome.renamed ['r'] ['a'] ['b']))
        (Outcome.newOf (Outcome.renamed ['r'] ['a'] ['b']))) =
      Outcome.rootOf (Outcome.renamed ['r'] ['a'] ['b']) :=
  ⟨by decide,
   (C3_same_parent fsA ['d'] ['a'] ['b'] (by decide) (by decide) _ (by decide)).1,
   (C3_same_parent fsA ['d'] ['a'] ['b'] (by decide) (by decide) _ (by decide)).2⟩

/-- C4: for every processed candidate file, the recorded new name equals
the old name with all non-overlapping literal occurrences of the
(non-empty) find token replaced by the replace token, scanning left to
right — the spec-side `specReplace`. -/
theorem C4_new_name_follows_spec (fs : FS) (t find repl : List Char) (hne : find ≠ []) :
    ∀ o ∈ outcomesOf (rename_files fs t find repl),
      Outcome.newOf o = specReplace find repl (Outcome.oldOf o) := by
  intro o ho
  cases hdir : fs.isDir t with
  | false =>
    rw [rename_files_notDir fs t find repl hdir] at ho
    simp [outcomesOf] at ho
  | true =>
    rw [rename_files_isDir fs t find repl hdir] at ho
    simp only [outcomesOf] at ho
    rcases processWalk_origin fs find repl (fs.walk t) o ho with ⟨e, _, n, _, _, _, hold, hnew⟩
    rw [hnew, hold, pyReplace_eq_specReplace find repl hne]

theorem C4_new_name_follows_spec_witness :
    (['a'] ≠ ([] : List Char)) ∧
    Outcome.newOf (Outcome.renamed ['r'] ['a'] ['b']) =
      specReplace ['a'] ['b'] (Outcome.oldOf (Outcome.renamed ['r'] ['a'] ['b'])) :=
  ⟨by decide, C4_new_name_follows_spec fsA ['d'] ['a'] ['b'] (by decide) _ (by decide)⟩

/-- C5: only regular files whose name contains the find token are ever
renamed — every outcome stems from a member of some walk entry's `files`
list (never from `dirs`), and its old name contains the token; any file
or directory name outside that set yields no outcome and is untouched. -/
theorem C5_frame (fs : FS) (t find repl : List Char) :
    ∀ o ∈ outcomesOf (rename_files fs t find repl),
      containsSub find (Outcome.oldOf o) = true ∧
      ∃ e, e ∈ fs.walk t ∧ Outcome.oldOf o ∈ e.files ∧ Outcome.rootOf o = e.root := by
  intro o ho
  cases hdir : fs.isDir t with
  | false =>
    rw [rename_files_notDir fs t find repl hdir] at ho
    simp [outcomesOf] at ho
  | true =>
    rw [rename_files_isDir fs t find repl hdir] at ho
    simp only [outcomesOf] at ho
    rcases processWalk_origin fs find repl (fs.walk t) o ho with
      ⟨e, he, n, hn, hc, hroot, hold, _⟩
    exact ⟨by rw [hold]; exact hc, e, he, by rw [hold]; exact hn, hroot⟩

theorem C5_frame_witness :
    containsSub ['a'] (Outcome.oldOf (Outcome.renamed ['r'] ['a'] ['b'])) = true ∧
    ∃ e, e ∈ fsA.walk ['d'] ∧ Outcome.oldOf (Outcome.renamed ['r'] ['a'] ['b']) ∈ e.files ∧
      Outcome.rootOf (Outcome.renamed ['r'] ['a'] ['b']) = e.root :=
  C5_frame fsA ['d'] ['a'] ['b'] _ (by decide)

/-- C6: when the target is not a directory, the run reports the
directory-not-found condition, yields no outcomes and counts zero
renames. -/
theorem C6_missing_dir (fs : FS) (t find repl : List Char) (hdir : fs.isDir t = false) :
    rename_files fs t find repl = RunResult.dirNotFound t ∧
    outcomesOf (rename_files fs t find repl) = [] ∧
    countOf (rename_files fs t find repl) = 0 := by
  refine ⟨rename_files_notDir fs t find repl hdir, ?_, ?_⟩ <;>
    rw [rename_files_notDir fs t find repl hdir] <;> rfl

theorem C6_missing_dir_witness :
    fsNone.isDir ['d'] = false ∧
    rename_files fsNone ['d'] ['a'] ['b'] = RunResult.dirNotFound ['d'] ∧
    outcomesOf (rename_files fsNone ['d'] ['a'] ['b']) = [] ∧
    countOf (rename_files fsNone ['d'] ['a'] ['b']) = 0 :=
  ⟨by decide, (C6_missing_dir fsNone ['d'] ['a'] ['b'] (by decide)).1,
   (C6_missing_dir fsNone ['d'] ['a'] ['b'] (by decide)).2.1,
   (C6_missing_dir fsNone ['d'] ['a'] ['b'] (by decide)).2.2⟩

/-- C7: per-file failure isolation — the final count equals the number of
successful outcomes (failures are excluded), every candidate file of the
walk produces exactly one outcome whether or not earlier renames failed,
and each failure records exactly the error message of its own rename
call. -/
theorem C7_failure_isolation (fs : FS) (t find repl : List Char) (hdir : fs.isDir t = true) :
    countOf (rename_files fs t find repl) =
      ((outcomesOf (rename_files fs t find repl)).filter Outcome.isSuccess).length ∧
    (outcomesOf (rename_files fs t find repl)).length =
      ((fs.walk t).map (fun e => (e.files.filter (fun n => containsSub find n)).length)).sum ∧
    ∀ r o n e : List Char,
      Outcome.failed r o n e ∈ outcomesOf (rename_files fs t find repl) →
      fs.renameErr (joinPath r o) (joinPath r n) = some e := by
  rw [rename_files_isDir fs t find repl hdir]
  simp only [outcomesOf, countOf]
  exact ⟨countRenamed_eq_filter _, processWalk_length fs find repl (fs.walk t),
    processWalk_failed fs find repl (fs.walk t)⟩

theorem C7_failure_isolation_witness :
    fsW7.isDir ['d'] = true ∧
    countOf (rename_files fsW7 ['d'] ['a'] ['b']) =
      ((outcomesOf (rename_files fsW7 ['d'] ['a'] ['b'])).filter Outcome.isSuccess).length ∧
    (outcomesOf (rename_files fsW7 ['d'] ['a'] ['b'])).length =
      ((fsW7.walk ['d']).map
        (fun e => (e.files.filter (fun n => containsSub ['a'] n)).length)).sum ∧
    fsW7.renameErr (joinPath ['r'] ['a', 'x']) (joinPath ['r'] ['b', 'x']) = some ['E'] :=
  ⟨by decide, (C7_failure_isolation fsW7 ['d'] ['a'] ['b'] (by decide)).1,
   (C7_failure_isolation fsW7 ['d'] ['a'] ['b'] (by decide)).2.1,
   (C7_failure_isolation fsW7 ['d'] ['a'] ['b'] (by decide)).2.2
     ['r'] ['a', 'x'] ['b', 'x'] ['E'] (by decide)⟩

/-- C8: the Renamer is invoked exactly on the confirmation inputs `y` and
`Y`; every other input yields the distinct cancelled outcome and the
renamer — hence any filesystem mutation — is never invoked. -/
theorem C8_confirmation_gate (fs : FS) (args : Args) (stdin : Stdin) (cwd : List Char) :
    mainModel fs args stdin cwd =
      if stdin.confirmInput = ['y'] ∨ stdin.confirmInput = ['Y'] then
        MainResult.ran (rename_files fs (resolveTargetPath args.directory stdin.dirInput cwd)
          (args.find.getD stdin.findInput) (args.replace.getD stdin.replaceInput))
      else MainResult.cancelled := by
  simp only [mainModel]
  exact if_congr (pyLower_eq_y _) rfl rfl

/-- C9, counterexample: a command-line path surrounded by matching double
quotes is not quote-stripped (`main` strips quotes only on interactively
entered paths), so "every user-supplied target path ... is normalized"
fails for command-line arguments. -/
theorem C9_cli_quotes_not_stripped :
    resolveTargetPath (some [Char.ofNat 34, 'a', Char.ofNat 34]) [] [] ≠
      abspath [] (stripQuotes [Char.ofNat 34, 'a', Char.ofNat 34]) := by decide

/-- C9, amended: an interactively entered path is whitespace-stripped,
quote-stripped and resolved to absolute form, while a (non-empty)
command-line path is resolved to absolute form unchanged, without quote
stripping. -/
theorem C9_path_normalization (i cwd : List Char) :
    resolveTargetPath none i cwd = abspath cwd (stripQuotes (pyStrip i)) ∧
    ∀ p : List Char, p ≠ [] → resolveTargetPath (some p) i cwd = abspath cwd p := by
  refine ⟨rfl, ?_⟩
  intro p hp
  unfold resolveTargetPath
  show abspath cwd (if p.isEmpty = true then stripQuotes (pyStrip i) else p) = abspath cwd p
  rw [if_neg (by simp [isEmpty_false_of_ne_nil hp])]

theorem C9_path_normalization_witness :
    resolveTargetPath none ['a'] ['c'] = abspath ['c'] (stripQuotes (pyStrip ['a'])) ∧
    (['b'] ≠ ([] : List Char)) ∧
    resolveTargetPath (some ['b']) ['a'] ['c'] = abspath ['c'] ['b'] :=
  ⟨(C9_path_normalization ['a'] ['c']).1, by decide,
   (C9_path_normalization ['a'] ['c']).2 ['b'] (by decide)⟩

/-- C10: when the non-empty find token equals the replace token, every
candidate file is "renamed" to its unchanged old name and counted as a
success, so the reported count equals the number of candidate files even
though no name actually changes. -/
theorem C10_identity_renames_counted (fs : FS) (t find : List Char) (hne : find ≠ [])
    (hdir : fs.isDir t = true) (hok : ∀ p q, fs.renameErr p q = none) :
    (∀ o ∈ outcomesOf (rename_files fs t find find), Outcome.newOf o = Outcome.oldOf o) ∧
    countOf (rename_files fs t find find) =
      ((fs.walk t).map (fun e => (e.files.filter (fun n => containsSub find n)).length)).sum := by
  rw [rename_files_isDir fs t find find hdir]
  simp only [outcomesOf, countOf]
  constructor
  · intro o ho
    rcases processWalk_origin fs find find (fs.walk t) o ho with ⟨e, _, n, _, _, _, hold, hnew⟩
    rw [hnew, hold, pyReplace_self find hne]
  · rw [countRenamed_of_all_success _ (processWalk_success fs find find hok (fs.walk t)),
      processWalk_length]

theorem C10_identity_renames_counted_witness :
    (['a'] ≠ ([] : List Char)) ∧
    Outcome.newOf (Outcome.renamed ['r'] ['a'] ['a']) =
      Outcome.oldOf (Outcome.renamed ['r'] ['a'] ['a']) ∧
    countOf (rename_files fsA ['d'] ['a'] ['a']) =
      ((fsA.walk ['d']).map
        (fun e => (e.files.filter (fun n => containsSub ['a'] n)).length)).sum :=
  ⟨by decide,
   (C10_identity_renames_counted fsA ['d'] ['a'] (by decide) (by decide)
      (fun _ _ => rfl)).1 _ (by decide),
   (C10_identity_renames_counted fsA ['d'] ['a'] (by decide) (by decide)
      (fun _ _ => rfl)).2⟩
